import Mathlib

/-!
Verification of the rebalancing core of the high volatility short bot
(source: src/bot.py).  The embedding below translates the volatility
ranker, the allocation calculator, the paper trading reconciliation
ledger, the live trading pass and the scheduler arithmetic into Lean.

Modelling conventions:
* Python floats are embedded as exact rationals.
* Python dicts are embedded as association lists with insertion order
  semantics: assignment to an existing key replaces the stored value in
  place, assignment to a fresh key appends at the end.
* Market data access (tickers, klines, instrument info) is an external
  collaborator and is passed in as explicit functions.
* The irrational statistics kernel of calculate_volatility (sample
  standard deviation of the trailing log returns, together with its
  NaN guard) is passed in as an explicit parameter volStat; every
  theorem below holds for all such statistics, so nothing depends on
  its value.  The length guard of calculate_volatility is translated
  literally.
* The log lines of the source are reified as an action trace.
-/

/-- Side of a position or order, mirroring the Buy / Sell strings of the source. -/
inductive Side where
  | Buy : Side
  | Sell : Side
deriving DecidableEq

/-- One entry of the targets dict built by calculate_target_positions:
a side plus a notional value in quote currency. -/
structure Target where
  side : Side
  value : ℚ
deriving DecidableEq

/-- One entry of the paper_positions dict: side, size in units of the
underlying, and entry price. -/
structure Position where
  side : Side
  size : ℚ
  entry : ℚ
deriving DecidableEq

/-- The mutable paper trading state of the bot: the paper_positions dict
and the paper_pnl accumulator. -/
structure LedgerState where
  positions : List (String × Position)
  pnl : ℚ
deriving DecidableEq

/-- Reified log line of execute_paper_trade.  Close and reverse record the
position being closed, the exit price used and the realized amount; hold
records the held symbol; openPos records the freshly written position. -/
inductive BotAction where
  | close (symbol : String) (pos : Position) (exitPrice : ℚ) (pnl : ℚ) : BotAction
  | hold (symbol : String) : BotAction
  | reverse (symbol : String) (pos : Position) (exitPrice : ℚ) (pnl : ℚ) : BotAction
  | openPos (symbol : String) (side : Side) (size : ℚ) (entry : ℚ) : BotAction
deriving DecidableEq

/-- Dict lookup on an association list (first match wins). -/
def lookupA {α : Type} (k : String) : List (String × α) → Option α
  | [] => none
  | e :: t => if e.1 = k then some e.2 else lookupA k t

/-- Dict membership test, the translation of the Python `in` operator. -/
def containsKey {α : Type} (k : String) : List (String × α) → Bool
  | [] => false
  | e :: t => e.1 = k || containsKey k t

/-- Dict assignment: replace the value stored at an existing key in place,
append a fresh key at the end (Python 3.7 dict semantics). -/
def insertA {α : Type} (k : String) (v : α) : List (String × α) → List (String × α)
  | [] => [(k, v)]
  | e :: t => if e.1 = k then (k, v) :: t else e :: insertA k v t

/-- PnL realized when closing the given position at the given exit price,
exactly as written in execute_paper_trade: (entry - price) * size for a
short, (price - entry) * size for a long. -/
def realizedPnl (pos : Position) (price : ℚ) : ℚ :=
  match pos.side with
  | Side.Sell => (pos.entry - price) * pos.size
  | Side.Buy => (price - pos.entry) * pos.size

/-- First loop of execute_paper_trade: every open symbol that is absent
from the targets dict realizes PnL when its price is positive and is then
deleted from the dict (the deletion is unconditional in the source).
Returns the surviving positions, the PnL delta and the emitted actions. -/
def closePass (targets : List (String × Target)) (price : String → ℚ) :
    List (String × Position) → List (String × Position) × ℚ × List BotAction
  | [] => ([], 0, [])
  | (sym, pos) :: rest =>
    let r := closePass targets price rest
    if containsKey sym targets then ((sym, pos) :: r.1, r.2.1, r.2.2)
    else if 0 < price sym then
      (r.1, realizedPnl pos (price sym) + r.2.1,
        BotAction.close sym pos (price sym) (realizedPnl pos (price sym)) :: r.2.2)
    else (r.1, r.2.1, r.2.2)

/-- Second loop of execute_paper_trade: every targeted symbol with an
available price is held when a same side position exists, reversed when an
opposite side position exists (realizing PnL, then overwriting the entry),
and opened when no position exists.  A symbol whose price is not positive
is skipped.  Returns the updated positions, the PnL delta and the actions. -/
def openPass (price : String → ℚ) : List (String × Target) →
    List (String × Position) → List (String × Position) × ℚ × List BotAction
  | [], ps => (ps, 0, [])
  | (sym, tgt) :: rest, ps =>
    let p := price sym
    if p ≤ 0 then openPass price rest ps
    else
      match lookupA sym ps with
      | some pos =>
        if pos.side = tgt.side then
          let r := openPass price rest ps
          (r.1, r.2.1, BotAction.hold sym :: r.2.2)
        else
          let r := openPass price rest (insertA sym ⟨tgt.side, tgt.value / p, p⟩ ps)
          (r.1, realizedPnl pos p + r.2.1,
            BotAction.reverse sym pos p (realizedPnl pos p) ::
              BotAction.openPos sym tgt.side (tgt.value / p) p :: r.2.2)
      | none =>
        let r := openPass price rest (insertA sym ⟨tgt.side, tgt.value / p, p⟩ ps)
        (r.1, r.2.1, BotAction.openPos sym tgt.side (tgt.value / p) p :: r.2.2)

/-- Translation of execute_paper_trade: the close loop over the previous
positions followed by the open or adjust loop over the targets dict, with
paper_pnl accumulating both PnL deltas. -/
def execute_paper_trade (targets : List (String × Target)) (price : String → ℚ)
    (st : LedgerState) : LedgerState × List BotAction :=
  let c := closePass targets price st.positions
  let o := openPass price targets c.1
  (⟨o.1, st.pnl + c.2.1 + o.2.1⟩, c.2.2 ++ o.2.2)

/-- Translation of calculate_volatility: a series shorter than the lookback
window yields 0.0; otherwise the sample standard deviation of the trailing
log returns is computed, where that statistics kernel (including its NaN
guard, which also yields 0.0) is the abstract parameter volStat. -/
def calculate_volatility (volStat : List ℚ → ℚ) (lookback : ℕ) (closes : List ℚ) : ℚ :=
  if closes.length < lookback then 0 else volStat closes

/-- The volatilities list built by the loop of get_top_volatile_alts:
BTCUSDT is skipped, a symbol with an empty kline frame is skipped, and a
symbol is appended exactly when its computed volatility is positive. -/
def volatilitiesList (volStat : List ℚ → ℚ) (lookback : ℕ) (fetch : String → List ℚ) :
    List String → List (String × ℚ)
  | [] => []
  | s :: rest =>
    if s = "BTCUSDT" then volatilitiesList volStat lookback fetch rest
    else
      let closes := fetch s
      if closes = [] then volatilitiesList volStat lookback fetch rest
      else
        let v := calculate_volatility volStat lookback closes
        if 0 < v then (s, v) :: volatilitiesList volStat lookback fetch rest
        else volatilitiesList volStat lookback fetch rest

/-- Comparison used by the descending volatility sort. -/
def volGE (a b : String × ℚ) : Prop := b.2 ≤ a.2

instance : DecidableRel volGE := fun a b => inferInstanceAs (Decidable (b.2 ≤ a.2))

instance : IsTotal (String × ℚ) volGE := ⟨fun a b => le_total b.2 a.2⟩

instance : IsTrans (String × ℚ) volGE := ⟨fun _ _ _ h1 h2 => le_trans h2 h1⟩

/-- The stable descending sort of the source, volatilities.sort with
key vol and reverse set: Python uses a stable sort, and the unique stable
descending order is realized by insertion sort on volGE. -/
def sortDesc (l : List (String × ℚ)) : List (String × ℚ) :=
  List.insertionSort volGE l

/-- The fully ranked list of get_top_volatile_alts before truncation. -/
def rankedList (volStat : List ℚ → ℚ) (lookback : ℕ) (symbols : List String)
    (fetch : String → List ℚ) : List (String × ℚ) :=
  sortDesc (volatilitiesList volStat lookback fetch symbols)

/-- Translation of get_top_volatile_alts: the sorted volatilities list
truncated to the first nShorts entries. -/
def get_top_volatile_alts (volStat : List ℚ → ℚ) (lookback : ℕ) (nShorts : ℕ)
    (symbols : List String) (fetch : String → List ℚ) : List (String × ℚ) :=
  (rankedList volStat lookback symbols fetch).take nShorts

/-- The short writing loop of calculate_target_positions. -/
def shortAll (each : ℚ) : List (String × ℚ) → List (String × Target) →
    List (String × Target)
  | [], acc => acc
  | (sym, _) :: rest, acc => shortAll each rest (insertA sym ⟨Side.Sell, each⟩ acc)

/-- Translation of calculate_target_positions: BTCUSDT is written first as a
long with the full capital, then every entry of the input list is written as
a short with value capital / nShorts. -/
def calculate_target_positions (capital : ℚ) (nShorts : ℕ)
    (top_volatile : List (String × ℚ)) : List (String × Target) :=
  shortAll (capital / (nShorts : ℚ)) top_volatile
    (insertA "BTCUSDT" ⟨Side.Buy, capital⟩ [])

/-- Translation of run_once in paper mode: rank, bail out with no targets
and an untouched ledger when fewer than nShorts alts were found, otherwise
compute targets and reconcile. -/
def run_once (volStat : List ℚ → ℚ) (lookback nShorts : ℕ) (capital : ℚ)
    (symbols : List String) (fetch : String → List ℚ) (price : String → ℚ)
    (st : LedgerState) : Option (List (String × Target)) × LedgerState × List BotAction :=
  let top_volatile := get_top_volatile_alts volStat lookback nShorts symbols fetch
  if top_volatile.length < nShorts then (none, st, [])
  else
    let targets := calculate_target_positions capital nShorts top_volatile
    let e := execute_paper_trade targets price st
    (some targets, e.1, e.2)

/-- One entry of the current_positions dict read back from the exchange in
execute_live_trade: side, size and position value. -/
structure LivePos where
  side : Side
  size : ℚ
  value : ℚ
deriving DecidableEq

/-- Order or leverage call issued by execute_live_trade. -/
inductive LiveAction where
  | closeOrder (symbol : String) (side : Side) (qty : ℚ) : LiveAction
  | setLev (symbol : String) (lev : ℕ) : LiveAction
  | openOrder (symbol : String) (side : Side) (qty : ℚ) : LiveAction
deriving DecidableEq

/-- The symbol an issued live action refers to. -/
def liveActionSymbol : LiveAction → String
  | LiveAction.closeOrder s _ _ => s
  | LiveAction.setLev s _ => s
  | LiveAction.openOrder s _ _ => s

/-- Side used to reduce an existing position with a market order. -/
def flipSide : Side → Side
  | Side.Buy => Side.Sell
  | Side.Sell => Side.Buy

/-- Translation of the Python builtin round (banker rounding, half to even). -/
def pyRound (x : ℚ) : ℤ :=
  let n := Int.floor x
  let r := x - (n : ℚ)
  if r < 1 / 2 then n
  else if 1 / 2 < r then n + 1
  else if n % 2 = 0 then n else n + 1

/-- First loop of execute_live_trade: every current position whose symbol is
absent from the targets dict is closed with a reduce only market order on
the opposite side. -/
def liveClosePass (targets : List (String × Target)) :
    List (String × LivePos) → List LiveAction
  | [] => []
  | (sym, pos) :: rest =>
    if containsKey sym targets then liveClosePass targets rest
    else LiveAction.closeOrder sym (flipSide pos.side) pos.size :: liveClosePass targets rest

/-- Second loop of execute_live_trade: a targeted symbol that already has a
position of any side is skipped; otherwise leverage is set, the quantity is
derived from the instrument lot size filter, and a market order is placed.
A zero price raises ZeroDivisionError inside the try block, so only the
leverage call survives for that symbol. -/
def liveOpenPass (price : String → ℚ) (instr : String → ℚ × ℚ) (lev : ℕ)
    (cur : List (String × LivePos)) : List (String × Target) → List LiveAction
  | [] => []
  | (sym, tgt) :: rest =>
    if containsKey sym cur then liveOpenPass price instr lev cur rest
    else
      let minQty := (instr sym).1
      let qtyStep := (instr sym).2
      let p := price sym
      if p = 0 then LiveAction.setLev sym lev :: liveOpenPass price instr lev cur rest
      else
        let qty := max minQty ((pyRound (tgt.value / p / qtyStep) : ℚ) * qtyStep)
        LiveAction.setLev sym lev :: LiveAction.openOrder sym tgt.side qty ::
          liveOpenPass price instr lev cur rest

/-- Translation of execute_live_trade: close pass over the positions read
from the exchange, then the open pass over the targets dict. -/
def execute_live_trade (price : String → ℚ) (instr : String → ℚ × ℚ) (lev : ℕ)
    (targets : List (String × Target)) (cur : List (String × LivePos)) : List LiveAction :=
  liveClosePass targets cur ++ liveOpenPass price instr lev cur targets

/-- A UTC instant as used by get_next_rebalance_time: an absolute day index
together with the wall clock fields (microseconds do not influence any of
the statements below and are omitted). -/
structure UTCTime where
  day : ℕ
  hour : ℕ
  minute : ℕ
  second : ℕ
deriving DecidableEq

/-- Wall clock fields in range. -/
def UTCTime.Valid (t : UTCTime) : Prop :=
  t.hour < 24 ∧ t.minute < 60 ∧ t.second < 60

/-- Total seconds since the epoch of day 0, for comparing instants. -/
def toSecs (t : UTCTime) : ℕ :=
  ((t.day * 24 + t.hour) * 60 + t.minute) * 60 + t.second

/-- Translation of get_next_rebalance_time: the next hour that is a multiple
of four, rolling over to midnight of the next day when the computed hour
reaches 24. -/
def get_next_rebalance_time (now : UTCTime) : UTCTime :=
  let next_hour := (now.hour / 4 + 1) * 4
  if 24 ≤ next_hour then ⟨now.day + 1, 0, 0, 0⟩
  else ⟨now.day, next_hour, 0, 0⟩

/-- Modelled from the spec, section 4.3: the PnL realization formula at
close or reverse time, given entry price e, size s and exit price p.  Used
to state the refinement of the formulas inlined in execute_paper_trade. -/
def pnl_spec (side : Side) (e s p : ℚ) : ℚ :=
  match side with
  | Side.Sell => (e - p) * s
  | Side.Buy => (p - e) * s

/-- Sum of the realized amounts carried by the close and reverse actions of
a trace; hold and open actions carry no realization. -/
def actionPnlSum : List BotAction → ℚ
  | [] => 0
  | BotAction.close _ _ _ q :: rest => q + actionPnlSum rest
  | BotAction.reverse _ _ _ q :: rest => q + actionPnlSum rest
  | BotAction.hold _ :: rest => actionPnlSum rest
  | BotAction.openPos _ _ _ _ :: rest => actionPnlSum rest

theorem insertA_appends_fresh_key : insertA "B" 2 [("A", 1)] = [("A", 1), ("B", 2)] := rfl

theorem insertA_replaces_in_place :
    insertA "A" 2 [("A", 1), ("B", 3)] = [("A", 2), ("B", 3)] := rfl

theorem containsKey_iff {α : Type} (k : String) (l : List (String × α)) :
    containsKey k l = true ↔ k ∈ l.map Prod.fst := by
  induction l with
  | nil => simp [containsKey]
  | cons e t ih =>
    simp only [containsKey, Bool.or_eq_true, decide_eq_true_eq, List.map_cons,
      List.mem_cons, ih]
    constructor
    · rintro (h | h)
      · exact Or.inl h.symm
      · exact Or.inr h
    · rintro (h | h)
      · exact Or.inl h.symm
      · exact Or.inr h

theorem lookupA_insertA_self {α : Type} (k : String) (v : α) (l : List (String × α)) :
    lookupA k (insertA k v l) = some v := by
  induction l with
  | nil => simp [insertA, lookupA]
  | cons e t ih =>
    by_cases h : e.1 = k
    · simp [insertA, h, lookupA]
    · simp [insertA, h, lookupA, ih]

theorem lookupA_insertA_ne {α : Type} {s k : String} (h : s ≠ k) (v : α)
    (l : List (String × α)) : lookupA s (insertA k v l) = lookupA s l := by
  induction l with
  | nil => simp [insertA, lookupA, Ne.symm h]
  | cons e t ih =>
    by_cases he : e.1 = k
    · simp [insertA, he, lookupA, Ne.symm h]
    · simp [insertA, he, lookupA, ih]

theorem mem_keys_insertA {α : Type} {s k : String} {v : α} {l : List (String × α)}
    (h : s ∈ (insertA k v l).map Prod.fst) : s = k ∨ s ∈ l.map Prod.fst := by
  induction l with
  | nil => simpa [insertA] using h
  | cons e t ih =>
    by_cases he : e.1 = k
    · have hrw : insertA k v (e :: t) = (k, v) :: t := by simp [insertA, he]
      rw [hrw] at h
      simp only [List.map_cons, List.mem_cons] at h ⊢
      rcases h with h | h
      · exact Or.inl h
      · exact Or.inr (Or.inr h)
    · have hrw : insertA k v (e :: t) = e :: insertA k v t := by simp [insertA, he]
      rw [hrw] at h
      simp only [List.map_cons, List.mem_cons] at h ⊢
      rcases h with h | h
      · exact Or.inr (Or.inl h)
      · rcases ih h with h | h
        · exact Or.inl h
        · exact Or.inr (Or.inr h)

theorem closePass_fst (targets : List (String × Target)) (price : String → ℚ)
    (ps : List (String × Position)) :
    (closePass targets price ps).1 = ps.filter (fun e => containsKey e.1 targets) := by
  induction ps with
  | nil => rfl
  | cons e t ih =>
    obtain ⟨sym, pos⟩ := e
    by_cases h : containsKey sym targets
    · simp [closePass, h, List.filter_cons, ih]
    · by_cases hp : 0 < price sym <;>
        simp [closePass, h, hp, List.filter_cons, ih]

theorem closePass_all_targeted (targets : List (String × Target)) (price : String → ℚ)
    (ps : List (String × Position)) (h : ∀ e ∈ ps, containsKey e.1 targets = true) :
    closePass targets price ps = (ps, 0, []) := by
  induction ps with
  | nil => rfl
  | cons e t ih =>
    obtain ⟨sym, pos⟩ := e
    have h1 := h (sym, pos) (List.mem_cons_self _ _)
    have h2 := ih fun x hx => h x (List.mem_cons_of_mem _ hx)
    simp [closePass, h1, h2]

theorem closePass_lookup_targeted (targets : List (String × Target)) (price : String → ℚ)
    (ps : List (String × Position)) {sym : String} (h : containsKey sym targets = true) :
    lookupA sym (closePass targets price ps).1 = lookupA sym ps := by
  induction ps with
  | nil => rfl
  | cons e t ih =>
    obtain ⟨s, pos⟩ := e
    by_cases hc : containsKey s targets
    · by_cases hs : s = sym
      · subst hs; simp [closePass, hc, lookupA]
      · simp [closePass, hc, lookupA, hs, ih]
    · have hs : s ≠ sym := fun hh => hc (hh ▸ h)
      by_cases hp : 0 < price s <;> simp [closePass, hc, hp, lookupA, hs, ih]

theorem openPass_lookup_not_mem (price : String → ℚ) {sym : String} :
    ∀ (ts : List (String × Target)) (ps : List (String × Position)),
    sym ∉ ts.map Prod.fst →
    lookupA sym (openPass price ts ps).1 = lookupA sym ps := by
  intro ts
  induction ts with
  | nil => intro ps _; rfl
  | cons e rest ih =>
    intro ps h
    obtain ⟨s, tgt⟩ := e
    simp only [List.map_cons, List.mem_cons, not_or] at h
    by_cases hp : price s ≤ 0
    · simp only [openPass, if_pos hp]
      exact ih ps h.2
    · rcases hlk : lookupA s ps with _ | pos
      · simp only [openPass, if_neg hp, hlk]
        rw [ih _ h.2, lookupA_insertA_ne h.1]
      · by_cases hsd : pos.side = tgt.side
        · simp only [openPass, if_neg hp, hlk, if_pos hsd]
          exact ih ps h.2
        · simp only [openPass, if_neg hp, hlk, if_neg hsd]
          rw [ih _ h.2, lookupA_insertA_ne h.1]

theorem mem_keys_openPass (price : String → ℚ) :
    ∀ (ts : List (String × Target)) (ps : List (String × Position)) {sym : String},
    sym ∈ (openPass price ts ps).1.map Prod.fst →
    sym ∈ ps.map Prod.fst ∨ sym ∈ ts.map Prod.fst := by
  intro ts
  induction ts with
  | nil => intro ps sym h; exact Or.inl h
  | cons e rest ih =>
    intro ps sym h
    obtain ⟨s, tgt⟩ := e
    simp only [List.map_cons, List.mem_cons]
    by_cases hp : price s ≤ 0
    · simp only [openPass, if_pos hp] at h
      rcases ih ps h with h | h
      · exact Or.inl h
      · exact Or.inr (Or.inr h)
    · rcases hlk : lookupA s ps with _ | pos
      · simp only [openPass, if_neg hp, hlk] at h
        rcases ih _ h with h | h
        · rcases mem_keys_insertA h with h | h
          · exact Or.inr (Or.inl h)
          · exact Or.inl h
        · exact Or.inr (Or.inr h)
      · by_cases hsd : pos.side = tgt.side
        · simp only [openPass, if_neg hp, hlk, if_pos hsd] at h
          rcases ih ps h with h | h
          · exact Or.inl h
          · exact Or.inr (Or.inr h)
        · simp only [openPass, if_neg hp, hlk, if_neg hsd] at h
          rcases ih _ h with h | h
          · rcases mem_keys_insertA h with h | h
            · exact Or.inr (Or.inl h)
            · exact Or.inl h
          · exact Or.inr (Or.inr h)

/-- Scenario D of the spec: a short of size 10 at entry 5 absent from the
new targets is closed at price 6, realizing (5 - 6) * 10 = -10. -/
theorem scenarioD_close_realizes_loss :
    execute_paper_trade [] (fun _ => 6) ⟨[("SYM", ⟨Side.Sell, 10, 5⟩)], 0⟩
      = (⟨[], -10⟩, [BotAction.close "SYM" ⟨Side.Sell, 10, 5⟩ 6 (-10)]) := by
  norm_num [execute_paper_trade, closePass, openPass, realizedPnl, containsKey]


theorem openPass_establishes (price : String → ℚ) :
    ∀ (ts : List (String × Target)) (ps : List (String × Position)),
    (ts.map Prod.fst).Nodup → (∀ e ∈ ts, 0 < price e.1) →
    ∀ e ∈ ts, ∃ pos, lookupA e.1 (openPass price ts ps).1 = some pos ∧
      pos.side = e.2.side := by
  intro ts
  induction ts with
  | nil => intro ps _ _ e he; cases he
  | cons hd rest ih =>
    intro ps hnd hpr e he
    obtain ⟨s, tgt⟩ := hd
    rw [List.map_cons] at hnd
    have hndc := List.nodup_cons.1 hnd
    have hp : 0 < price s := hpr (s, tgt) (List.mem_cons_self _ _)
    have hple : ¬ price s ≤ 0 := not_le.2 hp
    have hpr2 : ∀ x ∈ rest, 0 < price x.1 := fun x hx => hpr x (List.mem_cons_of_mem _ hx)
    rcases List.mem_cons.1 he with h1 | h2
    · have hs : s = e.1 := (Prod.ext_iff.1 h1).1.symm
      have ht : tgt = e.2 := (Prod.ext_iff.1 h1).2.symm
      subst hs
      subst ht
      rcases hlk : lookupA e.1 ps with _ | pos
      · simp only [openPass, if_neg hple, hlk]
        rw [openPass_lookup_not_mem price rest _ hndc.1, lookupA_insertA_self]
        exact ⟨_, rfl, rfl⟩
      · by_cases hsd : pos.side = e.2.side
        · simp only [openPass, if_neg hple, hlk, if_pos hsd]
          rw [openPass_lookup_not_mem price rest _ hndc.1]
          exact ⟨pos, hlk, hsd⟩
        · simp only [openPass, if_neg hple, hlk, if_neg hsd]
          rw [openPass_lookup_not_mem price rest _ hndc.1, lookupA_insertA_self]
          exact ⟨_, rfl, rfl⟩
    · rcases hlk : lookupA s ps with _ | pos
      · simp only [openPass, if_neg hple, hlk]
        exact ih _ hndc.2 hpr2 e h2
      · by_cases hsd : pos.side = tgt.side
        · simp only [openPass, if_neg hple, hlk, if_pos hsd]
          exact ih _ hndc.2 hpr2 e h2
        · simp only [openPass, if_neg hple, hlk, if_neg hsd]
          exact ih _ hndc.2 hpr2 e h2

theorem openPass_all_hold (price : String → ℚ) :
    ∀ (ts : List (String × Target)) (ps : List (String × Position)),
    (∀ e ∈ ts, 0 < price e.1) →
    (∀ e ∈ ts, ∃ pos, lookupA e.1 ps = some pos ∧ pos.side = e.2.side) →
    openPass price ts ps = (ps, 0, ts.map fun e => BotAction.hold e.1) := by
  intro ts
  induction ts with
  | nil => intro ps _ _; rfl
  | cons hd rest ih =>
    intro ps hpr hlk
    obtain ⟨s, tgt⟩ := hd
    have hp := hpr (s, tgt) (List.mem_cons_self _ _)
    obtain ⟨pos, hl, hs⟩ := hlk (s, tgt) (List.mem_cons_self _ _)
    have hrec := ih ps (fun x hx => hpr x (List.mem_cons_of_mem _ hx))
      (fun x hx => hlk x (List.mem_cons_of_mem _ hx))
    simp only [openPass, if_neg (not_le.2 hp), hl, if_pos hs, hrec, List.map_cons]

theorem openPass_reverses (price : String → ℚ) :
    ∀ (ts : List (String × Target)) (ps : List (String × Position)) (sym : String)
      (tgt : Target) (pos : Position),
    (ts.map Prod.fst).Nodup → (sym, tgt) ∈ ts → 0 < price sym →
    lookupA sym ps = some pos → pos.side ≠ tgt.side →
    lookupA sym (openPass price ts ps).1
        = some ⟨tgt.side, tgt.value / price sym, price sym⟩
      ∧ BotAction.reverse sym pos (price sym) (realizedPnl pos (price sym))
          ∈ (openPass price ts ps).2.2 := by
  intro ts
  induction ts with
  | nil => intro ps sym tgt pos _ hm; cases hm
  | cons hd rest ih =>
    intro ps sym tgt pos hnd hm hp hlkp hside
    obtain ⟨s, t0⟩ := hd
    rw [List.map_cons] at hnd
    have hndc := List.nodup_cons.1 hnd
    rcases List.mem_cons.1 hm with h1 | h2
    · have hs : s = sym := (Prod.ext_iff.1 h1).1.symm
      have ht : t0 = tgt := (Prod.ext_iff.1 h1).2.symm
      subst hs
      subst ht
      simp only [openPass, if_neg (not_le.2 hp), hlkp, if_neg hside]
      constructor
      · rw [openPass_lookup_not_mem price rest _ hndc.1, lookupA_insertA_self]
      · exact List.mem_cons_self _ _
    · have hsym : sym ∈ rest.map Prod.fst := List.mem_map.2 ⟨(sym, tgt), h2, rfl⟩
      have hne : sym ≠ s := fun hh => hndc.1 (hh ▸ hsym)
      by_cases hp0 : price s ≤ 0
      · simp only [openPass, if_pos hp0]
        exact ih ps sym tgt pos hndc.2 h2 hp hlkp hside
      · rcases hlks : lookupA s ps with _ | pos2
        · have hlkp2 : lookupA sym (insertA s ⟨t0.side, t0.value / price s, price s⟩ ps)
              = some pos := by rw [lookupA_insertA_ne hne]; exact hlkp
          have hr := ih _ sym tgt pos hndc.2 h2 hp hlkp2 hside
          simp only [openPass, if_neg hp0, hlks]
          exact ⟨hr.1, List.mem_cons_of_mem _ hr.2⟩
        · by_cases hsd : pos2.side = t0.side
          · have hr := ih ps sym tgt pos hndc.2 h2 hp hlkp hside
            simp only [openPass, if_neg hp0, hlks, if_pos hsd]
            exact ⟨hr.1, List.mem_cons_of_mem _ hr.2⟩
          · have hlkp2 : lookupA sym (insertA s ⟨t0.side, t0.value / price s, price s⟩ ps)
                = some pos := by rw [lookupA_insertA_ne hne]; exact hlkp
            have hr := ih _ sym tgt pos hndc.2 h2 hp hlkp2 hside
            simp only [openPass, if_neg hp0, hlks, if_neg hsd]
            exact ⟨hr.1, List.mem_cons_of_mem _ (List.mem_cons_of_mem _ hr.2)⟩

theorem closePass_pnl (targets : List (String × Target)) (price : String → ℚ)
    (ps : List (String × Position)) :
    (closePass targets price ps).2.1 = actionPnlSum (closePass targets price ps).2.2 := by
  induction ps with
  | nil => rfl
  | cons e t ih =>
    obtain ⟨sym, pos⟩ := e
    by_cases h : containsKey sym targets
    · simp [closePass, h, ih]
    · by_cases hp : 0 < price sym <;> simp [closePass, h, hp, actionPnlSum, ih]

theorem openPass_pnl (price : String → ℚ) :
    ∀ (ts : List (String × Target)) (ps : List (String × Position)),
    (openPass price ts ps).2.1 = actionPnlSum (openPass price ts ps).2.2 := by
  intro ts
  induction ts with
  | nil => intro ps; rfl
  | cons hd rest ih =>
    intro ps
    obtain ⟨s, tgt⟩ := hd
    by_cases hp : price s ≤ 0
    · simp only [openPass, if_pos hp]; exact ih ps
    · rcases hlk : lookupA s ps with _ | pos
      · simp only [openPass, if_neg hp, hlk, actionPnlSum]; exact ih _
      · by_cases hsd : pos.side = tgt.side
        · simp only [openPass, if_neg hp, hlk, if_pos hsd, actionPnlSum]; exact ih ps
        · simp only [openPass, if_neg hp, hlk, if_neg hsd, actionPnlSum]
          rw [ih]

theorem closePass_close_shape (targets : List (String × Target)) (price : String → ℚ) :
    ∀ (ps : List (String × Position)) (sym : String) (pos : Position) (ex amt : ℚ),
    BotAction.close sym pos ex amt ∈ (closePass targets price ps).2.2 →
    amt = realizedPnl pos ex ∧ 0 < ex ∧ ex = price sym := by
  intro ps
  induction ps with
  | nil => intro sym pos ex amt h; cases h
  | cons e t ih =>
    intro sym pos ex amt h
    obtain ⟨s, p0⟩ := e
    by_cases hc : containsKey s targets
    · simp only [closePass, if_pos hc] at h
      exact ih sym pos ex amt h
    · by_cases hp : 0 < price s
      · simp only [closePass, if_neg hc, if_pos hp, List.mem_cons] at h
        rcases h with h | h
        · obtain ⟨h1, h2, h3, h4⟩ := BotAction.close.inj h
          subst h1; subst h2; subst h3; subst h4
          exact ⟨rfl, hp, rfl⟩
        · exact ih sym pos ex amt h
      · simp only [closePass, if_neg hc, if_neg hp] at h
        exact ih sym pos ex amt h

theorem closePass_no_reverse (targets : List (String × Target)) (price : String → ℚ) :
    ∀ (ps : List (String × Position)) (sym : String) (pos : Position) (ex amt : ℚ),
    BotAction.reverse sym pos ex amt ∉ (closePass targets price ps).2.2 := by
  intro ps
  induction ps with
  | nil => intro sym pos ex amt h; cases h
  | cons e t ih =>
    intro sym pos ex amt h
    obtain ⟨s, p0⟩ := e
    by_cases hc : containsKey s targets
    · simp only [closePass, if_pos hc] at h
      exact ih sym pos ex amt h
    · by_cases hp : 0 < price s
      · simp only [closePass, if_neg hc, if_pos hp, List.mem_cons] at h
        rcases h with h | h
        · cases h
        · exact ih sym pos ex amt h
      · simp only [closePass, if_neg hc, if_neg hp] at h
        exact ih sym pos ex amt h

theorem openPass_reverse_shape (price : String → ℚ) :
    ∀ (ts : List (String × Target)) (ps : List (String × Position)) (sym : String)
      (pos : Position) (ex amt : ℚ),
    BotAction.reverse sym pos ex amt ∈ (openPass price ts ps).2.2 →
    amt = realizedPnl pos ex ∧ 0 < ex ∧ ex = price sym := by
  intro ts
  induction ts with
  | nil => intro ps sym pos ex amt h; cases h
  | cons hd rest ih =>
    intro ps sym pos ex amt h
    obtain ⟨s, tgt⟩ := hd
    by_cases hp : price s ≤ 0
    · simp only [openPass, if_pos hp] at h
      exact ih ps sym pos ex amt h
    · rcases hlk : lookupA s ps with _ | pos2
      · simp only [openPass, if_neg hp, hlk, List.mem_cons] at h
        rcases h with h | h
        · cases h
        · exact ih _ sym pos ex amt h
      · by_cases hsd : pos2.side = tgt.side
        · simp only [openPass, if_neg hp, hlk, if_pos hsd, List.mem_cons] at h
          rcases h with h | h
          · cases h
          · exact ih ps sym pos ex amt h
        · simp only [openPass, if_neg hp, hlk, if_neg hsd, List.mem_cons] at h
          rcases h with h | h | h
          · obtain ⟨h1, h2, h3, h4⟩ := BotAction.reverse.inj h
            subst h1; subst h2; subst h3; subst h4
            exact ⟨rfl, lt_of_not_le hp, rfl⟩
          · cases h
          · exact ih _ sym pos ex amt h

theorem openPass_no_close (price : String → ℚ) :
    ∀ (ts : List (String × Target)) (ps : List (String × Position)) (sym : String)
      (pos : Position) (ex amt : ℚ),
    BotAction.close sym pos ex amt ∉ (openPass price ts ps).2.2 := by
  intro ts
  induction ts with
  | nil => intro ps sym pos ex amt h; cases h
  | cons hd rest ih =>
    intro ps sym pos ex amt h
    obtain ⟨s, tgt⟩ := hd
    by_cases hp : price s ≤ 0
    · simp only [openPass, if_pos hp] at h
      exact ih ps sym pos ex amt h
    · rcases hlk : lookupA s ps with _ | pos2
      · simp only [openPass, if_neg hp, hlk, List.mem_cons] at h
        rcases h with h | h
        · cases h
        · exact ih _ sym pos ex amt h
      · by_cases hsd : pos2.side = tgt.side
        · simp only [openPass, if_neg hp, hlk, if_pos hsd, List.mem_cons] at h
          rcases h with h | h
          · cases h
          · exact ih ps sym pos ex amt h
        · simp only [openPass, if_neg hp, hlk, if_neg hsd, List.mem_cons] at h
          rcases h with h | h | h
          · cases h
          · cases h
          · exact ih _ sym pos ex amt h

theorem actionPnlSum_append (l1 l2 : List BotAction) :
    actionPnlSum (l1 ++ l2) = actionPnlSum l1 + actionPnlSum l2 := by
  induction l1 with
  | nil => simp [actionPnlSum]
  | cons a t ih => cases a <;> simp [actionPnlSum, ih] <;> ring

theorem realizedPnl_eq_pnl_spec (pos : Position) (p : ℚ) :
    realizedPnl pos p = pnl_spec pos.side pos.entry pos.size p := by
  obtain ⟨side, size, entry⟩ := pos
  cases side <;> rfl

theorem keys_insertA {α : Type} (k : String) (v : α) (l : List (String × α)) :
    (insertA k v l).map Prod.fst
      = if k ∈ l.map Prod.fst then l.map Prod.fst else l.map Prod.fst ++ [k] := by
  induction l with
  | nil => simp [insertA]
  | cons e t ih =>
    by_cases he : e.1 = k
    · have hrw : insertA k v (e :: t) = (k, v) :: t := by simp [insertA, he]
      rw [hrw]
      simp [he]
    · have hrw : insertA k v (e :: t) = e :: insertA k v t := by simp [insertA, he]
      rw [hrw]
      simp only [List.map_cons, ih, List.mem_cons]
      by_cases hk : k ∈ t.map Prod.fst
      · simp [hk, Ne.symm he]
      · simp [hk, Ne.symm he]

theorem nodup_keys_insertA {α : Type} (k : String) (v : α) {l : List (String × α)}
    (h : (l.map Prod.fst).Nodup) : ((insertA k v l).map Prod.fst).Nodup := by
  rw [keys_insertA]
  by_cases hk : k ∈ l.map Prod.fst
  · simpa [hk] using h
  · simp [hk, List.nodup_append, h]

theorem mem_insertA_of_nodup {α : Type} {k : String} {v : α} {l : List (String × α)}
    (hnd : (l.map Prod.fst).Nodup) {e : String × α} (he : e ∈ insertA k v l) :
    e = (k, v) ∨ (e ∈ l ∧ e.1 ≠ k) := by
  induction l with
  | nil => exact Or.inl (by simpa [insertA] using he)
  | cons hd t ih =>
    rw [List.map_cons] at hnd
    have hndc := List.nodup_cons.1 hnd
    by_cases hh : hd.1 = k
    · have hrw : insertA k v (hd :: t) = (k, v) :: t := by simp [insertA, hh]
      rw [hrw] at he
      rcases List.mem_cons.1 he with h | h
      · exact Or.inl h
      · refine Or.inr ⟨List.mem_cons_of_mem _ h, ?_⟩
        intro hek
        exact hndc.1 (by rw [hh, ← hek]; exact List.mem_map.2 ⟨e, h, rfl⟩)
    · have hrw : insertA k v (hd :: t) = hd :: insertA k v t := by simp [insertA, hh]
      rw [hrw] at he
      rcases List.mem_cons.1 he with h | h
      · refine Or.inr ⟨by rw [h]; exact List.mem_cons_self _ _, by rw [h]; exact hh⟩
      · rcases ih hndc.2 h with h2 | h2
        · exact Or.inl h2
        · exact Or.inr ⟨List.mem_cons_of_mem _ h2.1, h2.2⟩

theorem insertA_of_not_mem {α : Type} {k : String} {l : List (String × α)}
    (h : k ∉ l.map Prod.fst) (v : α) : insertA k v l = l ++ [(k, v)] := by
  induction l with
  | nil => rfl
  | cons e t ih =>
    simp only [List.map_cons, List.mem_cons, not_or] at h
    have he : e.1 ≠ k := fun hh => h.1 hh.symm
    simp [insertA, he, ih h.2]

theorem nodup_keys_shortAll (each : ℚ) :
    ∀ (l : List (String × ℚ)) (acc : List (String × Target)),
    (acc.map Prod.fst).Nodup → ((shortAll each l acc).map Prod.fst).Nodup := by
  intro l
  induction l with
  | nil => intro acc h; exact h
  | cons hd rest ih =>
    intro acc h
    obtain ⟨sym, v⟩ := hd
    exact ih _ (nodup_keys_insertA sym _ h)

theorem shortAll_mem (each : ℚ) :
    ∀ (l : List (String × ℚ)) (acc : List (String × Target)),
    (acc.map Prod.fst).Nodup →
    ∀ e ∈ shortAll each l acc,
      e.2 = ⟨Side.Sell, each⟩ ∨ (e ∈ acc ∧ e.1 ∉ l.map Prod.fst) := by
  intro l
  induction l with
  | nil => intro acc _ e he; exact Or.inr ⟨he, by simp⟩
  | cons hd rest ih =>
    intro acc hnd e he
    obtain ⟨sym, v⟩ := hd
    have he2 : e ∈ shortAll each rest (insertA sym ⟨Side.Sell, each⟩ acc) := he
    rcases ih _ (nodup_keys_insertA _ _ hnd) e he2 with h | ⟨hmem, hnotin⟩
    · exact Or.inl h
    · rcases mem_insertA_of_nodup hnd hmem with h2 | ⟨h2, h3⟩
      · exact Or.inl (by rw [h2])
      · refine Or.inr ⟨h2, ?_⟩
        simp only [List.map_cons, List.mem_cons, not_or]
        exact ⟨h3, hnotin⟩

theorem shortAll_of_fresh (each : ℚ) :
    ∀ (l : List (String × ℚ)) (acc : List (String × Target)),
    (l.map Prod.fst).Nodup →
    (∀ s ∈ l.map Prod.fst, s ∉ acc.map Prod.fst) →
    shortAll each l acc = acc ++ l.map (fun p => (p.1, (⟨Side.Sell, each⟩ : Target))) := by
  intro l
  induction l with
  | nil => intro acc _ _; simp [shortAll]
  | cons hd rest ih =>
    intro acc hnd hfresh
    obtain ⟨sym, v⟩ := hd
    rw [List.map_cons] at hnd
    have hndc := List.nodup_cons.1 hnd
    have h1 : sym ∉ acc.map Prod.fst := hfresh sym (by simp)
    have hfresh2 : ∀ s ∈ rest.map Prod.fst,
        s ∉ (insertA sym (⟨Side.Sell, each⟩ : Target) acc).map Prod.fst := by
      intro s hs hmem
      rcases mem_keys_insertA hmem with h | h
      · exact hndc.1 (h ▸ hs)
      · refine hfresh s ?_ h
        simp only [List.map_cons, List.mem_cons]
        exact Or.inr hs
    calc shortAll each ((sym, v) :: rest) acc
        = shortAll each rest (insertA sym ⟨Side.Sell, each⟩ acc) := rfl
      _ = insertA sym (⟨Side.Sell, each⟩ : Target) acc
            ++ rest.map (fun p => (p.1, (⟨Side.Sell, each⟩ : Target))) := ih _ hndc.2 hfresh2
      _ = (acc ++ [(sym, (⟨Side.Sell, each⟩ : Target))])
            ++ rest.map (fun p => (p.1, (⟨Side.Sell, each⟩ : Target))) := by
            rw [insertA_of_not_mem h1]
      _ = acc ++ ((sym, v) :: rest).map (fun p => (p.1, (⟨Side.Sell, each⟩ : Target))) := by
            simp

theorem btc_not_mem_volatilitiesList (volStat : List ℚ → ℚ) (lookback : ℕ)
    (fetch : String → List ℚ) :
    ∀ symbols : List String,
    "BTCUSDT" ∉ (volatilitiesList volStat lookback fetch symbols).map Prod.fst := by
  intro symbols
  induction symbols with
  | nil => simp [volatilitiesList]
  | cons s rest ih =>
    by_cases hb : s = "BTCUSDT"
    · simpa [volatilitiesList, hb] using ih
    · by_cases hem : fetch s = []
      · simpa [volatilitiesList, hb, hem] using ih
      · by_cases hv : 0 < calculate_volatility volStat lookback (fetch s)
        · simp only [volatilitiesList, if_neg hb, if_neg hem, if_pos hv, List.map_cons,
            List.mem_cons, not_or]
          exact ⟨Ne.symm hb, ih⟩
        · simpa [volatilitiesList, hb, hem, hv] using ih

theorem mem_volatilitiesList (volStat : List ℚ → ℚ) (lookback : ℕ)
    (fetch : String → List ℚ) :
    ∀ (symbols : List String) (sym : String) (v : ℚ),
    (sym, v) ∈ volatilitiesList volStat lookback fetch symbols →
    v = calculate_volatility volStat lookback (fetch sym) ∧ 0 < v := by
  intro symbols
  induction symbols with
  | nil => intro sym v h; cases h
  | cons s rest ih =>
    intro sym v h
    by_cases hb : s = "BTCUSDT"
    · exact ih sym v (by simpa [volatilitiesList, hb] using h)
    · by_cases hem : fetch s = []
      · exact ih sym v (by simpa [volatilitiesList, hb, hem] using h)
      · by_cases hv : 0 < calculate_volatility volStat lookback (fetch s)
        · simp only [volatilitiesList, if_neg hb, if_neg hem, if_pos hv, List.mem_cons] at h
          rcases h with h | h
          · have hs : sym = s := (Prod.ext_iff.1 h).1
            have hv2 : v = calculate_volatility volStat lookback (fetch s) :=
              (Prod.ext_iff.1 h).2
            subst hs
            exact ⟨hv2, hv2 ▸ hv⟩
          · exact ih sym v h
        · exact ih sym v (by simpa [volatilitiesList, hb, hem, hv] using h)

theorem bool_eq_false {b : Bool} (h : ¬ b = true) : b = false := by
  cases b
  · rfl
  · exact absurd rfl h

theorem filter_orderedInsert_vol (v : ℚ) (a : String × ℚ) (l : List (String × ℚ)) :
    (List.orderedInsert volGE a l).filter (fun e => e.2 == v)
      = if a.2 == v then a :: l.filter (fun e => e.2 == v)
        else l.filter (fun e => e.2 == v) := by
  induction l with
  | nil => simp [List.orderedInsert, List.filter_cons]
  | cons b t ih =>
    by_cases hle : volGE a b
    · rw [List.orderedInsert_of_le volGE t hle]
      simp [List.filter_cons]
    · have hlt : a.2 < b.2 := lt_of_not_le (by simpa [volGE] using hle)
      have hrw : List.orderedInsert volGE a (b :: t) = b :: List.orderedInsert volGE a t := by
        simp [List.orderedInsert, hle]
      rw [hrw]
      by_cases hpa : (a.2 == v) = true
      · have hav : a.2 = v := by simpa using hpa
        have hbv : (b.2 == v) = false := by
          have : b.2 ≠ v := fun hh => absurd (hav ▸ hh ▸ hlt) (lt_irrefl _)
          simpa using this
        simp [List.filter_cons, hpa, hbv, ih]
      · simp [List.filter_cons, hpa, ih]

theorem filter_sortDesc (v : ℚ) (l : List (String × ℚ)) :
    (sortDesc l).filter (fun e => e.2 == v) = l.filter (fun e => e.2 == v) := by
  induction l with
  | nil => rfl
  | cons a t ih =>
    rw [sortDesc] at ih ⊢
    rw [List.insertionSort, filter_orderedInsert_vol, ih, List.filter_cons]

theorem liveClosePass_not_targeted (targets : List (String × Target)) :
    ∀ (cur : List (String × LivePos)) (a : LiveAction),
    a ∈ liveClosePass targets cur → containsKey (liveActionSymbol a) targets = false := by
  intro cur
  induction cur with
  | nil => intro a h; cases h
  | cons e rest ih =>
    intro a h
    obtain ⟨s, pos⟩ := e
    by_cases hc : containsKey s targets
    · simp only [liveClosePass, if_pos hc] at h
      exact ih a h
    · simp only [liveClosePass, if_neg hc, List.mem_cons] at h
      rcases h with h | h
      · rw [h]
        exact bool_eq_false hc
      · exact ih a h

theorem liveOpenPass_not_present (price : String → ℚ) (instr : String → ℚ × ℚ)
    (lev : ℕ) (cur : List (String × LivePos)) :
    ∀ (ts : List (String × Target)) (a : LiveAction),
    a ∈ liveOpenPass price instr lev cur ts →
    containsKey (liveActionSymbol a) cur = false := by
  intro ts
  induction ts with
  | nil => intro a h; cases h
  | cons e rest ih =>
    intro a h
    obtain ⟨s, tgt⟩ := e
    by_cases hc : containsKey s cur
    · simp only [liveOpenPass, if_pos hc] at h
      exact ih a h
    · by_cases hp : price s = 0
      · simp only [liveOpenPass, if_neg hc, if_pos hp, List.mem_cons] at h
        rcases h with h | h
        · rw [h]
          exact bool_eq_false hc
        · exact ih a h
      · simp only [liveOpenPass, if_neg hc, if_neg hp, List.mem_cons] at h
        rcases h with h | h | h
        · rw [h]
          exact bool_eq_false hc
        · rw [h]
          exact bool_eq_false hc
        · exact ih a h

/-- C1: evaluation of the code at the failing input.  The claim (and the
spec) say that a symbol whose current price is unavailable is left entirely
untouched, both when targeted and when absent from the new targets.  The
close loop of execute_paper_trade however deletes an absent-from-targets
position unconditionally: the deletion sits outside the price guard, so
with one short position on XUSDT (size 10, entry 5), an empty target
allocation and an unavailable price (0), the position vanishes, no PnL is
realized and no action is reported.  The claim describes the intended
skip-and-retain policy; the code drops the position. -/
theorem c1_unavailable_price_deletes_untargeted_position :
    execute_paper_trade [] (fun _ => 0) ⟨[("XUSDT", ⟨Side.Sell, 10, 5⟩)], 0⟩
      = (⟨[], 0⟩, []) := by
  norm_num [execute_paper_trade, closePass, openPass, realizedPnl, containsKey]

/-- C2 (amended): in the simulated ledger a targeted symbol whose existing
position has the opposite side is reversed: the old position realizes PnL
at the current price via the close formula and the stored entry is replaced
by a position on the target side with size = notional / price and entry =
current price.  In live mode no reverse happens: a targeted symbol that
already has a position of either side is skipped by the open loop and no
order of any kind is issued for it. -/
theorem c2_reverse_paper_only :
    (∀ (targets : List (String × Target)) (price : String → ℚ) (st : LedgerState)
       (sym : String) (tgt : Target) (pos : Position),
       (targets.map Prod.fst).Nodup → (sym, tgt) ∈ targets → 0 < price sym →
       lookupA sym st.positions = some pos → pos.side ≠ tgt.side →
       lookupA sym (execute_paper_trade targets price st).1.positions
           = some ⟨tgt.side, tgt.value / price sym, price sym⟩
         ∧ BotAction.reverse sym pos (price sym) (realizedPnl pos (price sym))
             ∈ (execute_paper_trade targets price st).2)
  ∧ (∀ (price : String → ℚ) (instr : String → ℚ × ℚ) (lev : ℕ)
       (targets : List (String × Target)) (cur : List (String × LivePos)) (sym : String),
       containsKey sym targets = true → containsKey sym cur = true →
       ∀ a ∈ execute_live_trade price instr lev targets cur,
         liveActionSymbol a ≠ sym) := by
  constructor
  · intro targets price st sym tgt pos hnd hmem hp hlk hside
    have hct : containsKey sym targets = true :=
      (containsKey_iff sym targets).2 (List.mem_map.2 ⟨(sym, tgt), hmem, rfl⟩)
    have hlk2 : lookupA sym (closePass targets price st.positions).1 = some pos := by
      rw [closePass_lookup_targeted targets price st.positions hct]
      exact hlk
    have hr := openPass_reverses price targets _ sym tgt pos hnd hmem hp hlk2 hside
    exact ⟨hr.1, List.mem_append.2 (Or.inr hr.2)⟩
  · intro price instr lev targets cur sym hct hcc a ha hh
    rcases List.mem_append.1 ha with h | h
    · have hf := liveClosePass_not_targeted targets cur a h
      rw [hh] at hf
      rw [hf] at hct
      cases hct
    · have hf := liveOpenPass_not_present price instr lev cur targets a h
      rw [hh] at hf
      rw [hf] at hcc
      cases hcc

/-- C2: counterexample to the claim as stated.  The claim requires a
REVERSE in every reconciliation pass, simulated or live.  In live mode an
existing opposite side position is never reversed: with a short position
mirrored from the exchange, a long target for the same symbol and an
available positive price, execute_live_trade issues no order at all (the
close loop skips targeted symbols, the open loop skips symbols that already
have a position), so no PnL is realized and no replacement is opened. -/
theorem c2_live_ignores_opposite_side_position :
    execute_live_trade (fun _ => 4) (fun _ => (1, 1)) 1
      [("SYM", ⟨Side.Buy, 100⟩)] [("SYM", ⟨Side.Sell, 10, 50⟩)] = [] := by
  norm_num [execute_live_trade, liveClosePass, liveOpenPass, containsKey]

/-- C2: witness instantiating the amended theorem at scenario C of the
spec: a short position of size 10 at entry 5, a long target of notional 100
and current price 4 are reversed in the simulated ledger, realizing
(5 - 4) * 10 and leaving a long position of size 100 / 4 at entry 4. -/
theorem c2_reverse_paper_only_witness :
    lookupA "SYM" (execute_paper_trade [("SYM", ⟨Side.Buy, 100⟩)] (fun _ => 4)
        ⟨[("SYM", ⟨Side.Sell, 10, 5⟩)], 0⟩).1.positions
      = some ⟨Side.Buy, 100 / 4, 4⟩
    ∧ BotAction.reverse "SYM" ⟨Side.Sell, 10, 5⟩ 4 (realizedPnl ⟨Side.Sell, 10, 5⟩ 4)
      ∈ (execute_paper_trade [("SYM", ⟨Side.Buy, 100⟩)] (fun _ => 4)
        ⟨[("SYM", ⟨Side.Sell, 10, 5⟩)], 0⟩).2 :=
  c2_reverse_paper_only.1 [("SYM", ⟨Side.Buy, 100⟩)] (fun _ => 4)
    ⟨[("SYM", ⟨Side.Sell, 10, 5⟩)], 0⟩ "SYM" ⟨Side.Buy, 100⟩ ⟨Side.Sell, 10, 5⟩
    (by decide) (by decide) (by norm_num) (by decide) (by decide)

/-- C4: when the ranked universe holds fewer than nShorts entries, run_once
signals the insufficient universe condition by returning before target
computation: no allocation is produced, the ledger state is returned
untouched and no action is taken. -/
theorem c4_insufficient_universe (volStat : List ℚ → ℚ) (lookback nShorts : ℕ)
    (capital : ℚ) (symbols : List String) (fetch : String → List ℚ)
    (price : String → ℚ) (st : LedgerState)
    (h : (rankedList volStat lookback symbols fetch).length < nShorts) :
    run_once volStat lookback nShorts capital symbols fetch price st
      = (none, st, []) := by
  have hlen : (get_top_volatile_alts volStat lookback nShorts symbols fetch).length
      < nShorts := by
    rw [get_top_volatile_alts, List.length_take]
    exact lt_of_le_of_lt (min_le_right _ _) h
  simp [run_once, hlen]

/-- C4: witness with an empty symbol universe: the ranked list is empty,
one short is required, and run_once leaves the ledger untouched. -/
theorem c4_insufficient_universe_witness :
    (rankedList (fun _ => 0) 30 [] (fun _ => [])).length < 1
    ∧ run_once (fun _ => 0) 30 1 1000 [] (fun _ => []) (fun _ => 5)
        ⟨[("AUSDT", ⟨Side.Sell, 2, 3⟩)], 7⟩
      = (none, ⟨[("AUSDT", ⟨Side.Sell, 2, 3⟩)], 7⟩, []) :=
  ⟨by decide, c4_insufficient_universe (fun _ => 0) 30 1 1000 [] (fun _ => [])
    (fun _ => 5) ⟨[("AUSDT", ⟨Side.Sell, 2, 3⟩)], 7⟩ (by decide)⟩

/-- C5: PnL realization.  The paper trading accumulator changes exactly by
the sum of the amounts carried by the close and reverse actions of the pass
(never reset, never otherwise adjusted), and every such amount equals the
spec formula (e - p) * s for a short and (p - e) * s for a long, computed at
a positive (available) exit price equal to the current price of the symbol. -/
theorem c5_pnl_realization (targets : List (String × Target)) (price : String → ℚ)
    (st : LedgerState) :
    (execute_paper_trade targets price st).1.pnl
        = st.pnl + actionPnlSum (execute_paper_trade targets price st).2
      ∧ (∀ (sym : String) (pos : Position) (ex amt : ℚ),
          BotAction.close sym pos ex amt ∈ (execute_paper_trade targets price st).2 →
          amt = pnl_spec pos.side pos.entry pos.size ex ∧ 0 < ex ∧ ex = price sym)
      ∧ (∀ (sym : String) (pos : Position) (ex amt : ℚ),
          BotAction.reverse sym pos ex amt ∈ (execute_paper_trade targets price st).2 →
          amt = pnl_spec pos.side pos.entry pos.size ex ∧ 0 < ex ∧ ex = price sym) := by
  refine ⟨?_, ?_, ?_⟩
  · show st.pnl + (closePass targets price st.positions).2.1
        + (openPass price targets (closePass targets price st.positions).1).2.1
      = st.pnl + actionPnlSum ((closePass targets price st.positions).2.2
        ++ (openPass price targets (closePass targets price st.positions).1).2.2)
    rw [actionPnlSum_append, closePass_pnl, openPass_pnl, add_assoc]
  · intro sym pos ex amt h
    rcases List.mem_append.1 h with h | h
    · have hs := closePass_close_shape targets price st.positions sym pos ex amt h
      rw [realizedPnl_eq_pnl_spec] at hs
      exact hs
    · exact absurd h (openPass_no_close price targets _ sym pos ex amt)
  · intro sym pos ex amt h
    rcases List.mem_append.1 h with h | h
    · exact absurd h (closePass_no_reverse targets price st.positions sym pos ex amt)
    · have hs := openPass_reverse_shape price targets _ sym pos ex amt h
      rw [realizedPnl_eq_pnl_spec] at hs
      exact hs

/-- C3: shape of the target allocation.  For a ranked sequence with at
least nShorts entries, distinct symbols and no reference asset among them,
the targets computed from its first nShorts entries are exactly one long
entry for BTCUSDT carrying the full capital followed by one short entry of
notional capital / nShorts per selected alt: the long filter is that single
reference entry and the short filter has exactly nShorts entries. -/
theorem c3_computeTargets_shape (capital : ℚ) (nShorts : ℕ) (ranked : List (String × ℚ))
    (h1 : nShorts ≤ ranked.length) (h2 : (ranked.map Prod.fst).Nodup)
    (h3 : "BTCUSDT" ∉ ranked.map Prod.fst) :
    calculate_target_positions capital nShorts (ranked.take nShorts)
        = ("BTCUSDT", (⟨Side.Buy, capital⟩ : Target))
            :: (ranked.take nShorts).map
                (fun p => (p.1, (⟨Side.Sell, capital / (nShorts : ℚ)⟩ : Target)))
      ∧ (calculate_target_positions capital nShorts (ranked.take nShorts)).filter
            (fun e => e.2.side == Side.Buy) = [("BTCUSDT", ⟨Side.Buy, capital⟩)]
      ∧ ((calculate_target_positions capital nShorts (ranked.take nShorts)).filter
            (fun e => e.2.side == Side.Sell)).length = nShorts := by
  have hkeys : (ranked.take nShorts).map Prod.fst = (ranked.map Prod.fst).take nShorts :=
    List.map_take _ _ _
  have hnd : ((ranked.take nShorts).map Prod.fst).Nodup := by
    rw [hkeys]
    exact List.Nodup.sublist (List.take_sublist _ _) h2
  have hb : "BTCUSDT" ∉ (ranked.take nShorts).map Prod.fst := by
    rw [hkeys]
    exact fun hh => h3 (List.mem_of_mem_take hh)
  have hfresh : ∀ s ∈ (ranked.take nShorts).map Prod.fst,
      s ∉ ((insertA "BTCUSDT" (⟨Side.Buy, capital⟩ : Target) []).map Prod.fst) := by
    intro s hs hmem
    have hsb : s = "BTCUSDT" := by simpa [insertA] using hmem
    exact hb (hsb ▸ hs)
  have hmain : calculate_target_positions capital nShorts (ranked.take nShorts)
      = ("BTCUSDT", (⟨Side.Buy, capital⟩ : Target))
          :: (ranked.take nShorts).map
              (fun p => (p.1, (⟨Side.Sell, capital / (nShorts : ℚ)⟩ : Target))) := by
    have hall := shortAll_of_fresh (capital / (nShorts : ℚ)) (ranked.take nShorts)
      (insertA "BTCUSDT" (⟨Side.Buy, capital⟩ : Target) []) hnd hfresh
    simpa [calculate_target_positions, insertA] using hall
  refine ⟨hmain, ?_, ?_⟩
  · rw [hmain, List.filter_cons_of_pos rfl]
    rw [List.filter_eq_nil_iff.2 ?_]
    intro a ha
    obtain ⟨q, hq, hqe⟩ := List.mem_map.1 ha
    rw [← hqe]
    exact fun h => Bool.noConfusion h
  · rw [hmain, List.filter_cons_of_neg (fun h => Bool.noConfusion h)]
    rw [List.filter_eq_self.2 ?_]
    · rw [List.length_map, List.length_take]
      exact min_eq_left h1
    · intro a ha
      obtain ⟨q, hq, hqe⟩ := List.mem_map.1 ha
      rw [← hqe]
      rfl

/-- C3: witness at scenario B of the spec: capital 1000, two shorts,
ranked alts X, Y, Z with distinct symbols and no reference asset; the
targets are BTCUSDT long 1000, X short 500, Y short 500 and Z is excluded. -/
theorem c3_computeTargets_shape_witness :
    (2 ≤ ([("X", (1 : ℚ)/2), ("Y", 2/5), ("Z", 3/10)] : List (String × ℚ)).length)
    ∧ calculate_target_positions 1000 2
        (([("X", (1 : ℚ)/2), ("Y", 2/5), ("Z", 3/10)] : List (String × ℚ)).take 2)
      = ("BTCUSDT", (⟨Side.Buy, 1000⟩ : Target))
          :: (([("X", (1 : ℚ)/2), ("Y", 2/5), ("Z", 3/10)] : List (String × ℚ)).take 2).map
              (fun p => (p.1, (⟨Side.Sell, 1000 / ((2 : ℕ) : ℚ)⟩ : Target))) :=
  ⟨by decide, (c3_computeTargets_shape 1000 2 [("X", 1/2), ("Y", 2/5), ("Z", 3/10)]
    (by decide) (by decide) (by decide)).1⟩

/-- C6: idempotence of the simulated reconciliation.  With an unchanged
target allocation whose keys are distinct (a dict) and unchanged available
positive prices for every targeted symbol, a second pass leaves the whole
ledger state (positions with side, size and entry, and realized PnL)
unchanged and its trace is exactly one HOLD per targeted symbol. -/
theorem c6_reconciliation_idempotent (targets : List (String × Target))
    (price : String → ℚ) (st : LedgerState)
    (hnd : (targets.map Prod.fst).Nodup) (hpr : ∀ e ∈ targets, 0 < price e.1) :
    (execute_paper_trade targets price (execute_paper_trade targets price st).1).1
        = (execute_paper_trade targets price st).1
      ∧ (execute_paper_trade targets price (execute_paper_trade targets price st).1).2
        = targets.map fun e => BotAction.hold e.1 := by
  have hsub1 : ∀ e ∈ (closePass targets price st.positions).1,
      containsKey e.1 targets = true := by
    intro e he
    rw [closePass_fst] at he
    exact (List.mem_filter.1 he).2
  have hsub2 : ∀ e ∈ (openPass price targets (closePass targets price st.positions).1).1,
      containsKey e.1 targets = true := by
    intro e he
    have hk : e.1 ∈ (openPass price targets
        (closePass targets price st.positions).1).1.map Prod.fst :=
      List.mem_map.2 ⟨e, he, rfl⟩
    rcases mem_keys_openPass price targets _ hk with h | h
    · obtain ⟨e2, he2, hke⟩ := List.mem_map.1 h
      rw [← hke]
      exact hsub1 e2 he2
    · exact (containsKey_iff _ _).2 h
  have hclose2 : closePass targets price
      (openPass price targets (closePass targets price st.positions).1).1
      = ((openPass price targets (closePass targets price st.positions).1).1, 0, []) :=
    closePass_all_targeted _ _ _ hsub2
  have hest := openPass_establishes price targets
    (closePass targets price st.positions).1 hnd hpr
  have hhold : openPass price targets
      (openPass price targets (closePass targets price st.positions).1).1
      = ((openPass price targets (closePass targets price st.positions).1).1, 0,
          targets.map fun e => BotAction.hold e.1) :=
    openPass_all_hold price targets _ hpr hest
  have hrun2 : ∀ s : LedgerState,
      s.positions = (openPass price targets (closePass targets price st.positions).1).1 →
      execute_paper_trade targets price s
        = (s, targets.map fun e => BotAction.hold e.1) := by
    intro s hs
    simp only [execute_paper_trade, hs, hclose2, hhold, add_zero, List.nil_append]
    rw [← hs]
  have h2 := hrun2 (execute_paper_trade targets price st).1 rfl
  refine ⟨?_, ?_⟩
  · rw [h2]
  · rw [h2]

/-- C6: witness at a two symbol allocation opened from an empty ledger at
price 4: the second pass returns exactly the two HOLD actions. -/
theorem c6_reconciliation_idempotent_witness :
    (∀ e ∈ ([("BTCUSDT", ⟨Side.Buy, 1000⟩), ("AUSDT", ⟨Side.Sell, 500⟩)] :
        List (String × Target)), 0 < (fun _ => (4 : ℚ)) e.1)
    ∧ (execute_paper_trade [("BTCUSDT", ⟨Side.Buy, 1000⟩), ("AUSDT", ⟨Side.Sell, 500⟩)]
          (fun _ => 4)
          (execute_paper_trade [("BTCUSDT", ⟨Side.Buy, 1000⟩), ("AUSDT", ⟨Side.Sell, 500⟩)]
            (fun _ => 4) ⟨[], 0⟩).1).2
      = ([("BTCUSDT", ⟨Side.Buy, 1000⟩), ("AUSDT", ⟨Side.Sell, 500⟩)] :
          List (String × Target)).map fun e => BotAction.hold e.1 :=
  ⟨by decide,
    (c6_reconciliation_idempotent
      [("BTCUSDT", ⟨Side.Buy, 1000⟩), ("AUSDT", ⟨Side.Sell, 500⟩)] (fun _ => 4) ⟨[], 0⟩
      (by decide) (by decide)).2⟩

/-- C7: a candle series with fewer closes than the lookback window makes
calculate_volatility return the unrankable sentinel 0.0 (never a positive
statistic), and the positive volatility filter of get_top_volatile_alts
then keeps such a symbol out of the ranked output entirely. -/
theorem c7_short_series_unrankable (volStat : List ℚ → ℚ) (lookback nShorts : ℕ)
    (symbols : List String) (fetch : String → List ℚ) (sym : String)
    (h : (fetch sym).length < lookback) :
    calculate_volatility volStat lookback (fetch sym) = 0
      ∧ sym ∉ (get_top_volatile_alts volStat lookback nShorts symbols fetch).map
          Prod.fst := by
  have hv : calculate_volatility volStat lookback (fetch sym) = 0 := by
    simp [calculate_volatility, h]
  refine ⟨hv, ?_⟩
  intro hmem
  obtain ⟨e, he, hke⟩ := List.mem_map.1 hmem
  have he2 : e ∈ volatilitiesList volStat lookback fetch symbols := by
    have hmem2 := List.mem_of_mem_take he
    simpa [rankedList, sortDesc] using hmem2
  obtain ⟨s0, v0⟩ := e
  have hs0 : s0 = sym := hke
  subst hs0
  have hm := mem_volatilitiesList volStat lookback fetch symbols s0 v0 he2
  have hlt := hm.2
  rw [hm.1, hv] at hlt
  exact lt_irrefl 0 hlt

/-- C7: witness with a single candle and lookback two: the volatility is
the sentinel 0 and the symbol is missing from the ranked output. -/
theorem c7_short_series_unrankable_witness :
    (((fun _ => [(3 : ℚ)]) "AUSDT").length < 2)
    ∧ calculate_volatility (fun _ => 1) 2 ((fun _ => [(3 : ℚ)]) "AUSDT") = 0
    ∧ "AUSDT" ∉ (get_top_volatile_alts (fun _ => 1) 2 5 ["AUSDT"]
        (fun _ => [(3 : ℚ)])).map Prod.fst :=
  ⟨by decide,
    (c7_short_series_unrankable (fun _ => 1) 2 5 ["AUSDT"] (fun _ => [3]) "AUSDT"
      (by decide)).1,
    (c7_short_series_unrankable (fun _ => 1) 2 5 ["AUSDT"] (fun _ => [3]) "AUSDT"
      (by decide)).2⟩

/-- C8: get_next_rebalance_time returns an instant strictly after now, at
most four hours after it, whose hour is a multiple of four below 24 with
zero minutes and seconds, and it is the earliest such four hour UTC
boundary after now, the rollover to next day midnight included. -/
theorem c8_next_rebalance_correct (t : UTCTime) (h : t.Valid) :
    toSecs t < toSecs (get_next_rebalance_time t)
      ∧ toSecs (get_next_rebalance_time t) ≤ toSecs t + 4 * 3600
      ∧ (get_next_rebalance_time t).hour % 4 = 0
      ∧ (get_next_rebalance_time t).hour < 24
      ∧ (get_next_rebalance_time t).minute = 0
      ∧ (get_next_rebalance_time t).second = 0
      ∧ ∀ b : UTCTime, b.Valid → b.hour % 4 = 0 → b.minute = 0 → b.second = 0 →
          toSecs t < toSecs b → toSecs (get_next_rebalance_time t) ≤ toSecs b := by
  simp only [UTCTime.Valid] at h
  obtain ⟨h1, h2, h3⟩ := h
  have htt : toSecs t = ((t.day * 24 + t.hour) * 60 + t.minute) * 60 + t.second := rfl
  by_cases h24 : 24 ≤ (t.hour / 4 + 1) * 4
  · have hg : get_next_rebalance_time t = ⟨t.day + 1, 0, 0, 0⟩ := by
      simp [get_next_rebalance_time, h24]
    have hn : toSecs (get_next_rebalance_time t)
        = (((t.day + 1) * 24 + 0) * 60 + 0) * 60 + 0 := by rw [hg]; rfl
    have hh4 : (get_next_rebalance_time t).hour = 0 := by rw [hg]
    have hm4 : (get_next_rebalance_time t).minute = 0 := by rw [hg]
    have hs4 : (get_next_rebalance_time t).second = 0 := by rw [hg]
    refine ⟨?_, ?_, ?_, ?_, hm4, hs4, ?_⟩
    · rw [htt, hn]; omega
    · rw [htt, hn]; omega
    · rw [hh4]
    · rw [hh4]; omega
    · intro b hb h4 hm5 hs5 hlt
      have hbb : toSecs b = ((b.day * 24 + b.hour) * 60 + b.minute) * 60 + b.second := rfl
      simp only [UTCTime.Valid] at hb
      rw [htt, hbb] at hlt
      rw [hn, hbb]
      omega
  · have hg : get_next_rebalance_time t = ⟨t.day, (t.hour / 4 + 1) * 4, 0, 0⟩ := by
      simp [get_next_rebalance_time, h24]
    have hn : toSecs (get_next_rebalance_time t)
        = ((t.day * 24 + (t.hour / 4 + 1) * 4) * 60 + 0) * 60 + 0 := by rw [hg]; rfl
    have hh4 : (get_next_rebalance_time t).hour = (t.hour / 4 + 1) * 4 := by rw [hg]
    have hm4 : (get_next_rebalance_time t).minute = 0 := by rw [hg]
    have hs4 : (get_next_rebalance_time t).second = 0 := by rw [hg]
    refine ⟨?_, ?_, ?_, ?_, hm4, hs4, ?_⟩
    · rw [htt, hn]; omega
    · rw [htt, hn]; omega
    · rw [hh4]; omega
    · rw [hh4]; omega
    · intro b hb h4 hm5 hs5 hlt
      have hbb : toSecs b = ((b.day * 24 + b.hour) * 60 + b.minute) * 60 + b.second := rfl
      simp only [UTCTime.Valid] at hb
      rw [htt, hbb] at hlt
      rw [hn, hbb]
      omega

/-- C8: witness at 23:59:59: the next trigger is next day midnight, one
second later, with hour multiple of four and zero minutes. -/
theorem c8_next_rebalance_correct_witness :
    UTCTime.Valid ⟨0, 23, 59, 59⟩
    ∧ toSecs ⟨0, 23, 59, 59⟩ < toSecs (get_next_rebalance_time ⟨0, 23, 59, 59⟩)
    ∧ (get_next_rebalance_time ⟨0, 23, 59, 59⟩).hour % 4 = 0
    ∧ (get_next_rebalance_time ⟨0, 23, 59, 59⟩).minute = 0 :=
  ⟨by norm_num [UTCTime.Valid],
    (c8_next_rebalance_correct ⟨0, 23, 59, 59⟩ (by norm_num [UTCTime.Valid])).1,
    (c8_next_rebalance_correct ⟨0, 23, 59, 59⟩ (by norm_num [UTCTime.Valid])).2.2.1,
    (c8_next_rebalance_correct ⟨0, 23, 59, 59⟩
      (by norm_num [UTCTime.Valid])).2.2.2.2.1⟩

/-- C9: the ranker output is sorted by volatility descending (volGE holds
pairwise), the stable sort keeps entries of equal volatility in their
insertion order (the filtered subsequence at any volatility value is the
insertion order subsequence), and the output is a pure function of the
fetched series, so identical fetch results give identical rankings. -/
theorem c9_ranker_sorted_stable_deterministic (volStat : List ℚ → ℚ)
    (lookback nShorts : ℕ) (symbols : List String) (fetch : String → List ℚ) :
    List.Sorted volGE (get_top_volatile_alts volStat lookback nShorts symbols fetch)
      ∧ (∀ v : ℚ,
          (rankedList volStat lookback symbols fetch).filter (fun e => e.2 == v)
            = (volatilitiesList volStat lookback fetch symbols).filter
                (fun e => e.2 == v))
      ∧ (∀ fetch2 : String → List ℚ, (∀ s : String, fetch s = fetch2 s) →
          get_top_volatile_alts volStat lookback nShorts symbols fetch
            = get_top_volatile_alts volStat lookback nShorts symbols fetch2) := by
  refine ⟨?_, ?_, ?_⟩
  · exact List.Pairwise.take (List.sorted_insertionSort volGE _)
  · intro v
    exact filter_sortDesc v _
  · intro fetch2 hh
    rw [funext hh]

/-- C10: the ranker never emits the reference asset, and the exclusion is
load bearing: would the ranked input of calculate_target_positions contain
BTCUSDT, the short write for it would overwrite the long reference entry
under the same dict key and every entry of the resulting allocation would
be a short, leaving no long position at all. -/
theorem c10_btc_exclusion_load_bearing :
    (∀ (volStat : List ℚ → ℚ) (lookback nShorts : ℕ) (symbols : List String)
       (fetch : String → List ℚ),
       "BTCUSDT" ∉ (get_top_volatile_alts volStat lookback nShorts
         symbols fetch).map Prod.fst)
      ∧ (∀ (capital : ℚ) (nShorts : ℕ) (ranked : List (String × ℚ)),
          "BTCUSDT" ∈ ranked.map Prod.fst →
          ∀ e ∈ calculate_target_positions capital nShorts ranked,
            e.2.side = Side.Sell) := by
  constructor
  · intro volStat lookback nShorts symbols fetch hmem
    obtain ⟨e, he, hke⟩ := List.mem_map.1 hmem
    have he2 : e ∈ volatilitiesList volStat lookback fetch symbols := by
      have h1 := List.mem_of_mem_take he
      simpa [rankedList, sortDesc] using h1
    exact btc_not_mem_volatilitiesList volStat lookback fetch symbols
      (List.mem_map.2 ⟨e, he2, hke⟩)
  · intro capital nShorts ranked hbtc e he
    have hacc : ((insertA "BTCUSDT" (⟨Side.Buy, capital⟩ : Target) []).map
        Prod.fst).Nodup := by
      simp [insertA]
    rcases shortAll_mem (capital / (nShorts : ℚ)) ranked _ hacc e he with h | ⟨hmem, hnot⟩
    · rw [h]
    · have hbe : e = ("BTCUSDT", (⟨Side.Buy, capital⟩ : Target)) := by
        simpa [insertA] using hmem
      rw [hbe] at hnot
      exact absurd hbtc hnot

/-- C5: witness at scenario D of the spec: closing the short of size 10 at
entry 5 with exit price 6 changes the accumulator exactly by the summed
close amounts. -/
theorem c5_pnl_realization_witness :
    (execute_paper_trade [] (fun _ => 6) ⟨[("SYM", ⟨Side.Sell, 10, 5⟩)], 0⟩).1.pnl
      = (0 : ℚ) + actionPnlSum (execute_paper_trade [] (fun _ => 6)
          ⟨[("SYM", ⟨Side.Sell, 10, 5⟩)], 0⟩).2 :=
  (c5_pnl_realization [] (fun _ => 6) ⟨[("SYM", ⟨Side.Sell, 10, 5⟩)], 0⟩).1

/-- C9: witness with a concrete two symbol universe: the ranking is sorted
with respect to descending volatility. -/
theorem c9_ranker_sorted_stable_deterministic_witness :
    List.Sorted volGE (get_top_volatile_alts (fun _ => 1) 1 5 ["AUSDT", "BUSDT"]
      (fun _ => [3])) :=
  (c9_ranker_sorted_stable_deterministic (fun _ => 1) 1 5 ["AUSDT", "BUSDT"]
    (fun _ => [3])).1

/-- C10: witness with the reference asset among the tradable symbols: it is
still missing from the ranked output. -/
theorem c10_btc_exclusion_load_bearing_witness :
    "BTCUSDT" ∉ (get_top_volatile_alts (fun _ => 1) 1 5 ["BTCUSDT", "AUSDT"]
      (fun _ => [3])).map Prod.fst :=
  c10_btc_exclusion_load_bearing.1 (fun _ => 1) 1 5 ["BTCUSDT", "AUSDT"] (fun _ => [3])
